import Mathlib

/-!
Shallow embedding of the room event store and pagination pipeline of a
terminal Matrix chat client (sources: `src/base.rs`, `src/worker.rs`,
`src/windows/room/chat.rs`).  Identifiers (event ids, room ids, user ids,
message bodies, cursors, emoji) are abstracted as natural numbers;
`Instant` timestamps are natural numbers with an explicit `now` parameter.

The checked-in source tree omits the `message` module (which defines
`MessageTimeStamp`, `MessageKey`, `Message` and the ordered `Messages`
map) and ships an older `base.rs` that lacks the `fetching`, `reactions`
and `EventLocation` items that `worker.rs` and `chat.rs` use.  Those
missing pieces are modelled from the spec and are marked as such in their
doc comments; everything else is translated directly from the source.
-/

namespace Iamb

/-- Modelled from the spec: the `message` module's `MessageTimeStamp` is
missing from the source tree.  Two variants: `ServerTimestamp(T)` for
confirmed events and `LocalEcho` for not-yet-confirmed local sends. -/
inductive MessageTimeStamp where
  | ServerTimestamp (ts : Nat)
  | LocalEcho
  deriving DecidableEq

/-- Composite message key: (timestamp-or-local-echo-marker, event id). -/
abbrev MessageKey := MessageTimeStamp × Nat

/-- Rank used to order timestamps: `LocalEcho` sorts after every
`ServerTimestamp` value (spec: "pending messages always render at the
bottom"). -/
def tsRank : MessageTimeStamp → Nat × Nat
  | .ServerTimestamp t => (0, t)
  | .LocalEcho => (1, 0)

/-- Strict lexicographic order on triples of naturals. -/
def tripLt : Nat × Nat × Nat → Nat × Nat × Nat → Bool
  | (a, b, c), (d, e, f) => a < d || (a == d && (b < e || (b == e && c < f)))

/-- Numeric view of a `MessageKey` used for ordering. -/
def keyVal (k : MessageKey) : Nat × Nat × Nat :=
  ((tsRank k.1).1, (tsRank k.1).2, k.2)

/-- Modelled from the spec: the ordering of `MessageKey` (the missing
`message` module derives `Ord`): timestamps first, with `LocalEcho` after
all `ServerTimestamp` values, ties broken by event identifier. -/
def keyLt (k1 k2 : MessageKey) : Bool :=
  tripLt (keyVal k1) (keyVal k2)

/-- Replacement (edit) relation payload: target event id and new body. -/
structure Replacement where
  event_id : Nat
  new_content : Nat
  deriving DecidableEq

/-- Room message event as consumed by `RoomInfo::insert`: its id, origin
server timestamp, sender, body, and an optional replacement relation. -/
structure RoomMessageEvent where
  event_id : Nat
  origin_server_ts : Nat
  sender : Nat
  content : Nat
  relates_to : Option Replacement := none
  deriving DecidableEq

/-- Modelled from the spec: `MessageEvent` variants of the missing
`message` module (`Original`, `Local`, `Redacted`, plus the encrypted
variants used by `chat.rs` and `worker.rs`). -/
inductive MessageEvent where
  | Original (content : Nat)
  | Local (event_id : Nat) (content : Nat)
  | Redacted
  | EncryptedOriginal (event_id : Nat)
  | EncryptedRedacted (event_id : Nat)
  deriving DecidableEq

/-- Modelled from the spec: one displayable unit of the missing `message`
module (`downloaded`/image handles are irrelevant to the claims and
omitted). -/
structure Message where
  event : MessageEvent
  sender : Nat
  timestamp : MessageTimeStamp
  deriving DecidableEq

/-- Conversion applied by `insert_message` (`msg.into()`): a confirmed
room message becomes an `Original` entry stamped with its server
timestamp. -/
def Message.ofEvent (ev : RoomMessageEvent) : Message :=
  { event := .Original ev.content,
    sender := ev.sender,
    timestamp := .ServerTimestamp ev.origin_server_ts }

/-- Modelled from the spec: the Message Log (`Messages`, a `BTreeMap`
keyed by `MessageKey` in the missing `message` module) as an association
list kept sorted in strictly ascending key order; iteration order is list
order. -/
abbrev Messages := List (MessageKey × Message)

/-- Ordered-map insertion: place the entry at its key's sort position,
replacing any existing entry with the same key. -/
def msgsInsert (k : MessageKey) (m : Message) : Messages → Messages
  | [] => [(k, m)]
  | e :: rest =>
    if keyLt k e.1 then (k, m) :: e :: rest
    else if k = e.1 then (k, m) :: rest
    else e :: msgsInsert k m rest

/-- Ordered-map removal by key (`BTreeMap::remove`). -/
def msgsRemove (k : MessageKey) (l : Messages) : Messages :=
  l.filter (fun e => e.1 ≠ k)

/-- Ordered-map lookup by key (`BTreeMap::get`). -/
def msgsGet (k : MessageKey) : Messages → Option Message
  | [] => none
  | e :: rest => if e.1 = k then some e.2 else msgsGet k rest

/-- In-place update of the entry at a key, if present (`BTreeMap::get_mut`
followed by a mutation); never inserts. -/
def msgsSet (k : MessageKey) (m : Message) (l : Messages) : Messages :=
  l.map (fun e => if e.1 = k then (k, m) else e)

/-- Modelled from the spec: `EventLocation` (used by `worker.rs` but
defined in a newer `base.rs` that is not in the tree): an event id
resolves either to a message key or to a reaction marker carrying the
reacted-to event id. -/
inductive EventLocation where
  | Message (key : MessageKey)
  | Reaction (event_id : Nat)
  deriving DecidableEq

/-- Key-index lookup (`HashMap::get`). -/
def keysGet (eid : Nat) : List (Nat × EventLocation) → Option EventLocation
  | [] => none
  | e :: rest => if e.1 = eid then some e.2 else keysGet eid rest

/-- Key-index insertion (`HashMap::insert`): replaces any existing entry
for the id. -/
def keysInsert (eid : Nat) (loc : EventLocation) :
    List (Nat × EventLocation) → List (Nat × EventLocation)
  | [] => [(eid, loc)]
  | e :: rest => if e.1 = eid then (eid, loc) :: rest else e :: keysInsert eid loc rest

/-- Key-index removal (`HashMap::remove`). -/
def keysRemove (eid : Nat) (l : List (Nat × EventLocation)) : List (Nat × EventLocation) :=
  l.filter (fun e => e.1 ≠ eid)

/-- Reaction table: target event id → list of (reaction event id, emoji
and user, abstracted).  Modelled from the spec (`reactions` lives in the
newer `base.rs` missing from the tree). -/
abbrev Reactions := List (Nat × List (Nat × Nat))

/-- Reaction-table lookup by target event id. -/
def reactionsGet (target : Nat) : Reactions → Option (List (Nat × Nat))
  | [] => none
  | e :: rest => if e.1 = target then some e.2 else reactionsGet target rest

/-- Reaction-table in-place update at a target event id, if present. -/
def reactionsSet (target : Nat) (rs : List (Nat × Nat)) (l : Reactions) : Reactions :=
  l.map (fun e => if e.1 = target then (target, rs) else e)

/-- Reaction-table insertion of one (reaction event id, payload) pair
under the target event id, creating the entry when absent. -/
def reactionsAdd (target : Nat) (rid : Nat) (payload : Nat) : Reactions → Reactions
  | [] => [(target, [(rid, payload)])]
  | e :: rest =>
    if e.1 = target then (target, e.2 ++ [(rid, payload)]) :: rest
    else e :: reactionsAdd target rid payload rest

/-- Receipts: event id → user ids who have read up to it (`base.rs`). -/
abbrev Receipts := List (Nat × List Nat)

/-- Pagination cursor state machine (`base.rs`). -/
inductive RoomFetchStatus where
  | Done
  | HaveMore (fetch_id : Nat)
  | NotStarted
  deriving DecidableEq

/-- Per-room aggregate (`RoomInfo` in `base.rs`); the `fetching` flag,
`reactions` table and `EventLocation`-valued key index come from the
newer `base.rs` that `worker.rs` compiles against, modelled from the
spec.  Name/tag/typing metadata not touched by the claims is omitted. -/
structure RoomInfo where
  keys : List (Nat × EventLocation) := []
  messages : Messages := []
  receipts : Receipts := []
  read_till : Option Nat := none
  reactions : Reactions := []
  fetch_id : RoomFetchStatus := .NotStarted
  fetch_last : Option Nat := none
  fetching : Bool := false
  deriving DecidableEq

/-- Debounce window between fetches for one room
(`ROOM_FETCH_DEBOUNCE = 2s` in `base.rs`), in seconds. -/
def ROOM_FETCH_DEBOUNCE : Nat := 2

/-- Lookup through the key index (`RoomInfo::get_event` in `base.rs`); a
reaction marker does not resolve to a message. -/
def RoomInfo.get_event (info : RoomInfo) (event_id : Nat) : Option Message :=
  match keysGet event_id info.keys with
  | some (.Message k) => msgsGet k info.messages
  | _ => none

/-- Edit folding (`RoomInfo::insert_edit` in `base.rs`): look up the
target through the key index; silently drop when the id is unknown, the
index entry is stale, the entry is missing from the log, or the target is
not editable in place (only `Original` and `Local` bodies are). -/
def RoomInfo.insert_edit (info : RoomInfo) (msg : Replacement) : RoomInfo :=
  match keysGet msg.event_id info.keys with
  | some (.Message k) =>
    match msgsGet k info.messages with
    | some m =>
      match m.event with
      | .Original _ =>
        { info with messages := msgsSet k { m with event := .Original msg.new_content } info.messages }
      | .Local id _ =>
        { info with messages := msgsSet k { m with event := .Local id msg.new_content } info.messages }
      | _ => info
    | none => info
  | _ => info

/-- Message folding (`RoomInfo::insert_message` in `base.rs`): index and
insert at `(ServerTimestamp ts, event_id)`, then remove any local echo
keyed `(LocalEcho, event_id)`. -/
def RoomInfo.insert_message (info : RoomInfo) (msg : RoomMessageEvent) : RoomInfo :=
  let event_id := msg.event_id
  let key : MessageKey := (.ServerTimestamp msg.origin_server_ts, event_id)
  let keys := keysInsert event_id (.Message key) info.keys
  let messages := msgsInsert key (Message.ofEvent msg) info.messages
  let messages := msgsRemove (.LocalEcho, event_id) messages
  { info with keys := keys, messages := messages }

/-- Routing insert (`RoomInfo::insert` in `base.rs`): a replacement
relation goes to edit handling, everything else is a plain insert. -/
def RoomInfo.insert (info : RoomInfo) (msg : RoomMessageEvent) : RoomInfo :=
  match msg.relates_to with
  | some repl => info.insert_edit repl
  | none => info.insert_message msg

/-- Debounce check (`RoomInfo::recently_fetched` in `base.rs`):
`fetch_last` is within the debounce window of `now`. -/
def RoomInfo.recently_fetched (info : RoomInfo) (now : Nat) : Bool :=
  match info.fetch_last with
  | none => false
  | some t => now - t < ROOM_FETCH_DEBOUNCE

/-- Modelled from the spec: `RoomInfo::insert_reaction` (newer `base.rs`,
missing from the tree): append to the reaction table keyed by the target
event id and index the reaction's own event id as a `Reaction` marker. -/
def RoomInfo.insert_reaction (info : RoomInfo) (event_id target payload : Nat) : RoomInfo :=
  { info with
    reactions := reactionsAdd target event_id payload info.reactions,
    keys := keysInsert event_id (.Reaction target) info.keys }

/-- Modelled from the spec: `RoomInfo::insert_encrypted` (newer
`base.rs`, missing from the tree): insert an encrypted-original entry at
its server-assigned key and index it. -/
def RoomInfo.insert_encrypted (info : RoomInfo) (event_id ts sender : Nat) : RoomInfo :=
  let key : MessageKey := (.ServerTimestamp ts, event_id)
  { info with
    keys := keysInsert event_id (.Message key) info.keys,
    messages := msgsInsert key
      { event := .EncryptedOriginal event_id, sender := sender, timestamp := .ServerTimestamp ts }
      info.messages }

/-- Local echo insertion from `ChatState::send_command` (`chat.rs`): the
just-sent message is placed at `(LocalEcho, event_id)` as a `Local`
entry; the key index is not touched. -/
def RoomInfo.sendLocalEcho (info : RoomInfo) (event_id content user : Nat) : RoomInfo :=
  let key : MessageKey := (.LocalEcho, event_id)
  let msg : Message :=
    { event := .Local event_id content, sender := user, timestamp := .LocalEcho }
  { info with messages := msgsInsert key msg info.messages }

/-- Redaction event handler registered in `ClientWorker::init`
(`worker.rs`): resolve the redacted id through the key index; a message
location is redacted in place (`Message::redact` is modelled from the
spec: the content variant becomes `Redacted`, the key is kept), a
reaction marker removes the reaction from the table and drops the index
entry, an unknown id is a no-op. -/
def RoomInfo.handle_redaction (info : RoomInfo) (redacts : Nat) : RoomInfo :=
  match keysGet redacts info.keys with
  | none => info
  | some (.Message key) =>
    match msgsGet key info.messages with
    | some msg =>
      { info with messages := msgsSet key { msg with event := .Redacted } info.messages }
    | none => info
  | some (.Reaction target) =>
    let reactions :=
      match reactionsGet target info.reactions with
      | some rs => reactionsSet target (rs.filter (fun e => e.1 ≠ redacts)) info.reactions
      | none => info.reactions
    { info with reactions := reactions, keys := keysRemove redacts info.keys }

/-- Timeline event as folded by `load_insert` (`worker.rs`): room
messages, encrypted messages and reactions are handled, any other
message-like kind is dropped. -/
inductive AnyMessageLikeEvent where
  | RoomMessage (ev : RoomMessageEvent)
  | RoomEncrypted (event_id ts sender : Nat)
  | Reaction (event_id target payload : Nat)
  | OtherKind
  deriving DecidableEq

/-- Per-event dispatch of the success branch of `load_insert`
(`worker.rs`). -/
def RoomInfo.insertAny (info : RoomInfo) : AnyMessageLikeEvent → RoomInfo
  | .RoomEncrypted eid ts sender => info.insert_encrypted eid ts sender
  | .RoomMessage ev => info.insert ev
  | .Reaction eid target payload => info.insert_reaction eid target payload
  | .OtherKind => info

/-- Result of one history fetch (`MessageFetchResult`): either the next
cursor (none when history is exhausted) and the page of events, or an
error (collapsed to `Unit`: the code only logs it). -/
abbrev MessageFetchResult := Except Unit (Option Nat × List AnyMessageLikeEvent)

/-- Shared application state as seen by the pagination scheduler and the
receipt refresh (`ChatStore` in `base.rs`): the room registry and the
needs-load set.  The registry is a partial map so that presence
(`HashMap::get_mut` vs `get_or_default`) is expressible. -/
structure ChatStore where
  rooms : Nat → Option RoomInfo
  need_load : List Nat

/-- Registry lookup-or-insert content (`rooms.get_or_default`). -/
def ChatStore.getOrDefault (st : ChatStore) (room_id : Nat) : RoomInfo :=
  (st.rooms room_id).getD {}

/-- Registry update at one room id. -/
def ChatStore.setRoom (st : ChatStore) (room_id : Nat) (info : RoomInfo) : ChatStore :=
  { st with rooms := fun r => if r = room_id then some info else st.rooms r }

/-- Needs-load set insertion (`HashSet::insert`). -/
def needLoadInsert (room_id : Nat) (l : List Nat) : List Nat :=
  if room_id ∈ l then l else room_id :: l

/-- Marking a room for loading (`ChatStore::mark_for_load`). -/
def ChatStore.mark_for_load (st : ChatStore) (room_id : Nat) : ChatStore :=
  { st with need_load := needLoadInsert room_id st.need_load }

/-- Body of `load_plan`'s loop for one drained room (`worker.rs`): a room
that is fetching or recently fetched is re-queued untouched; otherwise
`fetch_last` is stamped and `fetching` set, and the room is planned
unless its status is `Done`. -/
def loadPlanStep (now : Nat) (acc : ChatStore × List (Nat × Option Nat)) (room_id : Nat) :
    ChatStore × List (Nat × Option Nat) :=
  let st := acc.1
  let plan := acc.2
  let info := st.getOrDefault room_id
  let st := st.setRoom room_id info
  if info.recently_fetched now || info.fetching then
    ({ st with need_load := needLoadInsert room_id st.need_load }, plan)
  else
    let info := { info with fetch_last := some now, fetching := true }
    let st := st.setRoom room_id info
    match info.fetch_id with
    | .Done => (st, plan)
    | .HaveMore c => (st, plan ++ [(room_id, some c)])
    | .NotStarted => (st, plan ++ [(room_id, none)])

/-- Pagination admission (`load_plan` in `worker.rs`): drain the
needs-load set and fold `loadPlanStep` over it, producing the plan of
(room id, cursor) fetches to issue this tick. -/
def load_plan (st : ChatStore) (now : Nat) : ChatStore × List (Nat × Option Nat) :=
  st.need_load.foldl (loadPlanStep now) ({ st with need_load := [] }, [])

/-- Fold of one finished fetch (`load_insert` in `worker.rs`): clear
`fetching`; on success fold every event and set the status from the
returned cursor (`Done` when none), on failure re-queue the room and
leave everything else as it was. -/
def load_insert (room_id : Nat) (res : MessageFetchResult) (st : ChatStore) : ChatStore :=
  let info := st.getOrDefault room_id
  let info := { info with fetching := false }
  match res with
  | .ok (fetch_id, msgs) =>
    let info := msgs.foldl RoomInfo.insertAny info
    let info := { info with fetch_id := match fetch_id with
      | none => RoomFetchStatus.Done
      | some c => RoomFetchStatus.HaveMore c }
    st.setRoom room_id info
  | .error _ =>
    let st := st.setRoom room_id info
    { st with need_load := needLoadInsert room_id st.need_load }

/-- Body of `set_receipts`'s first loop for one room of the batch: if
the room exists in the registry (`rooms.get_mut`), overwrite its receipt
map and `take` any pending read-till marker into the update list; absent
rooms are skipped. -/
def setReceiptsStep (acc : ChatStore × List (Nat × Nat)) (entry : Nat × Receipts) :
    ChatStore × List (Nat × Nat) :=
  match acc.1.rooms entry.1 with
  | some info =>
    let updates := match info.read_till with
      | some read_till => acc.2 ++ [(entry.1, read_till)]
      | none => acc.2
    (acc.1.setRoom entry.1 { info with receipts := entry.2, read_till := none }, updates)
  | none => acc

/-- Receipt refresh fold (`ChatStore::set_receipts` in `base.rs`): for
each room in the freshly computed batch that exists in the registry,
replace its receipt map wholesale and take any pending read-till marker
into the `updates` list; the second loop then sends one read receipt per
taken marker whose room is still joined. -/
def set_receipts (st : ChatStore) (batch : List (Nat × Receipts)) (joined : Nat → Bool) :
    ChatStore × List (Nat × Nat) :=
  let folded := batch.foldl setReceiptsStep (st, [])
  (folded.1, folded.2.filter (fun u => joined u.1))

/-- One observable action of the pagination pipeline, for stating
temporal claims: a scheduler tick, the completion of an in-flight fetch,
or a user-driven mark-for-load. -/
inductive SysAction where
  | tick (now : Nat)
  | complete (room_id : Nat) (res : MessageFetchResult)
  | mark (room_id : Nat)

/-- Pipeline state: the store plus the set of rooms with a fetch in
flight (planned by some tick and not yet completed). -/
structure SysState where
  st : ChatStore
  inflight : List Nat

/-- Transition of the pagination pipeline: ticks run `load_plan` and
launch the planned fetches; a completion is only possible for an
in-flight room and runs `load_insert`; marking inserts into the
needs-load set. -/
def sysStep (s : SysState) : SysAction → SysState
  | .tick now =>
    let planned := load_plan s.st now
    { st := planned.1, inflight := s.inflight ++ planned.2.map (fun p => p.1) }
  | .complete room_id res =>
    if room_id ∈ s.inflight then
      { st := load_insert room_id res s.st, inflight := s.inflight.erase room_id }
    else s
  | .mark room_id => { s with st := s.st.mark_for_load room_id }

/-- Sortedness of a Message Log: consecutive keys strictly ascend, so the
iteration order is the key order. -/
def sortedMsgs (l : Messages) : Prop :=
  List.Pairwise (fun a b => keyLt a.1 b.1 = true) l

theorem tripLt_trans {a b c : Nat × Nat × Nat}
    (h1 : tripLt a b = true) (h2 : tripLt b c = true) : tripLt a c = true := by
  obtain ⟨a1, a2, a3⟩ := a
  obtain ⟨b1, b2, b3⟩ := b
  obtain ⟨c1, c2, c3⟩ := c
  simp only [tripLt, Bool.or_eq_true, Bool.and_eq_true, decide_eq_true_eq, beq_iff_eq] at *
  omega

theorem tripLt_irrefl (a : Nat × Nat × Nat) : tripLt a a = false := by
  obtain ⟨a1, a2, a3⟩ := a
  simp [tripLt]

theorem tripLt_total {a b : Nat × Nat × Nat} (h : a ≠ b) :
    tripLt a b = true ∨ tripLt b a = true := by
  obtain ⟨a1, a2, a3⟩ := a
  obtain ⟨b1, b2, b3⟩ := b
  simp only [tripLt, Bool.or_eq_true, Bool.and_eq_true, decide_eq_true_eq, beq_iff_eq]
  by_cases h1 : a1 = b1
  · by_cases h2 : a2 = b2
    · have h3 : a3 ≠ b3 := by
        intro hc
        exact h (by simp [h1, h2, hc])
      omega
    · omega
  · omega

theorem keyVal_inj {k1 k2 : MessageKey} (h : keyVal k1 = keyVal k2) : k1 = k2 := by
  obtain ⟨t1, e1⟩ := k1
  obtain ⟨t2, e2⟩ := k2
  cases t1 <;> cases t2 <;>
    simp_all [keyVal, tsRank, Prod.ext_iff]

theorem keyLt_trans {a b c : MessageKey}
    (h1 : keyLt a b = true) (h2 : keyLt b c = true) : keyLt a c = true :=
  tripLt_trans h1 h2

theorem keyLt_irrefl (a : MessageKey) : keyLt a a = false :=
  tripLt_irrefl (keyVal a)

theorem keyLt_total {a b : MessageKey} (h : a ≠ b) :
    keyLt a b = true ∨ keyLt b a = true :=
  tripLt_total (fun hv => h (keyVal_inj hv))

theorem mem_msgsInsert {l : Messages} {k : MessageKey} {m : Message} {e : MessageKey × Message}
    (h : e ∈ msgsInsert k m l) : e = (k, m) ∨ e ∈ l := by
  induction l with
  | nil => simpa [msgsInsert] using h
  | cons hd tl ih =>
    rw [msgsInsert] at h
    split at h
    · simp only [List.mem_cons] at h
      rcases h with h | h | h
      · exact Or.inl h
      · exact Or.inr (List.mem_cons.mpr (Or.inl h))
      · exact Or.inr (List.mem_cons_of_mem _ h)
    · split at h
      · simp only [List.mem_cons] at h
        rcases h with h | h
        · exact Or.inl h
        · exact Or.inr (List.mem_cons_of_mem _ h)
      · simp only [List.mem_cons] at h
        rcases h with h | h
        · exact Or.inr (List.mem_cons.mpr (Or.inl h))
        · rcases ih h with h | h
          · exact Or.inl h
          · exact Or.inr (List.mem_cons_of_mem _ h)

theorem sortedMsgs_insert {l : Messages} {k : MessageKey} {m : Message}
    (h : sortedMsgs l) : sortedMsgs (msgsInsert k m l) := by
  induction l with
  | nil => simp [msgsInsert, sortedMsgs]
  | cons hd tl ih =>
    rcases h with _ | ⟨hhd, htl⟩
    rw [sortedMsgs, msgsInsert]
    split
    · rename_i hlt
      refine List.Pairwise.cons ?_ (List.Pairwise.cons hhd htl)
      intro b hb
      rcases List.mem_cons.mp hb with hb | hb
      · simpa [hb] using hlt
      · exact keyLt_trans hlt (hhd b hb)
    · split
      · rename_i hlt heq
        refine List.Pairwise.cons ?_ htl
        intro b hb
        rw [heq]
        exact hhd b hb
      · rename_i hlt heq
        refine List.Pairwise.cons ?_ (ih htl)
        intro b hb
        rcases mem_msgsInsert hb with hb | hb
        · rw [hb]
          rcases keyLt_total (Ne.symm heq) with hk | hk
          · exact hk
          · exact absurd hk hlt
        · exact hhd b hb

theorem sortedMsgs_remove {l : Messages} {k : MessageKey}
    (h : sortedMsgs l) : sortedMsgs (msgsRemove k l) :=
  List.Pairwise.filter _ h

theorem msgsGet_insert_self (l : Messages) (k : MessageKey) (m : Message) :
    msgsGet k (msgsInsert k m l) = some m := by
  induction l with
  | nil => simp [msgsInsert, msgsGet]
  | cons hd tl ih =>
    rw [msgsInsert]
    split
    · simp [msgsGet]
    · split
      · simp [msgsGet]
      · rename_i hlt heq
        rw [msgsGet]
        simp only [Ne.symm heq, if_neg, ite_false]
        exact ih

theorem msgsGet_remove_self (l : Messages) (k : MessageKey) :
    msgsGet k (msgsRemove k l) = none := by
  induction l with
  | nil => simp [msgsRemove, msgsGet]
  | cons hd tl ih =>
    by_cases heq : hd.1 = k
    · simpa [msgsRemove, List.filter_cons, heq] using ih
    · simpa [msgsRemove, List.filter_cons, msgsGet, heq] using ih

theorem msgsGet_remove_ne (l : Messages) {k k2 : MessageKey} (h : k ≠ k2) :
    msgsGet k (msgsRemove k2 l) = msgsGet k l := by
  induction l with
  | nil => simp [msgsRemove]
  | cons hd tl ih =>
    rw [msgsRemove, List.filter_cons]
    by_cases h2 : hd.1 = k2
    · have hk : ¬hd.1 = k := by rw [h2]; exact fun hc => h hc.symm
      simpa [h2, msgsGet, hk, msgsRemove, Ne.symm h] using ih
    · by_cases heq : hd.1 = k
      · simp [h2, msgsGet, heq, h]
      · simpa [h2, msgsGet, heq, msgsRemove, h] using ih

/-- Number of Message Log entries whose key carries the given event id. -/
def countForEvent (e : Nat) (l : Messages) : Nat :=
  (l.filter (fun p => p.1.2 = e)).length

/-- Number of Message Log entries at exactly the given key. -/
def countKey (k : MessageKey) (l : Messages) : Nat :=
  (l.filter (fun p => p.1 = k)).length

theorem countForEvent_eq_zero {e : Nat} {l : Messages}
    (h : countForEvent e l = 0) : ∀ p ∈ l, p.1.2 ≠ e := by
  induction l with
  | nil => intro p hp; cases hp
  | cons hd tl ih =>
    intro p hp
    rw [countForEvent, List.filter_cons] at h
    by_cases hhd : hd.1.2 = e
    · simp [hhd] at h
    · rcases List.mem_cons.mp hp with hp | hp
      · rw [hp]; exact hhd
      · exact ih (by simpa [hhd, countForEvent] using h) p hp

theorem countKey_eq_zero {t : MessageTimeStamp} {e : Nat} {l : Messages}
    (h : ∀ p ∈ l, p.1.2 ≠ e) : countKey (t, e) l = 0 := by
  induction l with
  | nil => rfl
  | cons hd tl ih =>
    have hhd : ¬hd.1 = (t, e) := fun hc => h hd (List.mem_cons_self _ _) (by rw [hc])
    rw [countKey, List.filter_cons]
    simpa [hhd, countKey] using ih (fun p hp => h p (List.mem_cons_of_mem _ hp))

theorem countForEvent_insert {l : Messages} {k : MessageKey} (m : Message) (e : Nat)
    (h : ∀ p ∈ l, p.1 ≠ k) :
    countForEvent e (msgsInsert k m l)
      = countForEvent e l + (if k.2 = e then 1 else 0) := by
  induction l with
  | nil => by_cases hk : k.2 = e <;> simp [msgsInsert, countForEvent, hk]
  | cons hd tl ih =>
    have ih2 := ih (fun p hp => h p (List.mem_cons_of_mem _ hp))
    rw [msgsInsert]
    split
    · simp only [countForEvent, List.filter_cons]
      by_cases hk : k.2 = e <;> by_cases hh : hd.1.2 = e <;>
        simp [hk, hh] <;> omega
    · split
      · rename_i hlt heq
        exact absurd heq.symm (h hd (List.mem_cons_self _ _))
      · simp only [countForEvent, List.filter_cons] at ih2 ⊢
        by_cases hh : hd.1.2 = e <;> by_cases hk : k.2 = e <;>
          simp only [hk, hh, if_pos, if_neg, decide_eq_true_eq, ite_true, ite_false,
            List.length_cons] at ih2 ⊢ <;> omega

theorem countKey_insert_ne {l : Messages} {k k2 : MessageKey} (m : Message)
    (h : k ≠ k2) : countKey k2 (msgsInsert k m l) = countKey k2 l := by
  induction l with
  | nil => simp [msgsInsert, countKey, h]
  | cons hd tl ih =>
    rw [msgsInsert]
    split
    · simp only [countKey, List.filter_cons]
      simp [h]
    · split
      · rename_i hlt heq
        have hh : ¬hd.1 = k2 := by rw [← heq]; exact h
        simp only [countKey, List.filter_cons]
        simp [h, hh]
      · simp only [countKey, List.filter_cons] at ih ⊢
        by_cases hh : hd.1 = k2 <;> simp [hh, ih]

theorem countKey_insert_self {l : Messages} {k : MessageKey} (m : Message)
    (h : ∀ p ∈ l, p.1 ≠ k) : countKey k (msgsInsert k m l) = countKey k l + 1 := by
  induction l with
  | nil => simp [msgsInsert, countKey]
  | cons hd tl ih =>
    have hhd : ¬hd.1 = k := h hd (List.mem_cons_self _ _)
    have ih2 := ih (fun p hp => h p (List.mem_cons_of_mem _ hp))
    rw [msgsInsert]
    split
    · simp only [countKey, List.filter_cons]
      simp [hhd]
    · split
      · rename_i hlt heq
        exact absurd heq.symm hhd
      · simp only [countKey, List.filter_cons] at ih2 ⊢
        simp [hhd, ih2]

theorem countKey_le_countForEvent (t : MessageTimeStamp) (e : Nat) (l : Messages) :
    countKey (t, e) l ≤ countForEvent e l := by
  induction l with
  | nil => exact Nat.le_refl 0
  | cons hd tl ih =>
    simp only [countKey, countForEvent, List.filter_cons] at ih ⊢
    by_cases hk : hd.1 = (t, e)
    · have he : hd.1.2 = e := by rw [hk]
      simp [hk, he]
      omega
    · by_cases he : hd.1.2 = e <;> simp [hk, he] <;> omega

theorem countForEvent_remove (t : MessageTimeStamp) (e : Nat) (l : Messages) :
    countForEvent e (msgsRemove (t, e) l)
      = countForEvent e l - countKey (t, e) l := by
  induction l with
  | nil => rfl
  | cons hd tl ih =>
    have hle := countKey_le_countForEvent t e tl
    simp only [countForEvent, countKey, msgsRemove, List.filter_cons] at ih hle ⊢
    by_cases hk : hd.1 = (t, e)
    · have he : hd.1.2 = e := by rw [hk]
      simp [hk, he, List.filter_cons, List.filter_filter] at ih ⊢
      omega
    · by_cases he : hd.1.2 = e
      · simp [hk, he, List.filter_cons, List.filter_filter] at ih ⊢
        omega
      · simp [hk, he, List.filter_cons, List.filter_filter] at ih ⊢
        omega

theorem msgsGet_set_self {l : Messages} {k : MessageKey} {m0 : Message} (m : Message)
    (h : msgsGet k l = some m0) : msgsGet k (msgsSet k m l) = some m := by
  induction l with
  | nil => simp [msgsGet] at h
  | cons hd tl ih =>
    by_cases heq : hd.1 = k
    · simp [msgsSet, msgsGet, heq]
    · rw [msgsGet] at h
      simp only [heq, if_neg, ite_false] at h
      simpa [msgsSet, msgsGet, heq] using ih h

theorem sortedMsgs_insert_message {info : RoomInfo} (ev : RoomMessageEvent)
    (h : sortedMsgs info.messages) : sortedMsgs (info.insert_message ev).messages :=
  sortedMsgs_remove (sortedMsgs_insert h)

theorem sortedMsgs_foldl_insert_message (events : List RoomMessageEvent) (info : RoomInfo)
    (h : sortedMsgs info.messages) :
    sortedMsgs ((events.foldl RoomInfo.insert_message info).messages) := by
  induction events generalizing info with
  | nil => exact h
  | cons ev rest ih => exact ih _ (sortedMsgs_insert_message ev h)

/-- C1: calling `insert_message` with a server-confirmed event inserts an
entry keyed `(ServerTimestamp ts, event_id)` and removes any existing
`(LocalEcho, event_id)` entry, so a local send (which places a local echo
at `(LocalEcho, event_id)`) followed by ingestion of the confirmation
carrying the same event id leaves exactly one Message Log entry for that
event id — never zero, never two. -/
theorem claim1_local_echo_reconciliation
    (info : RoomInfo) (ev : RoomMessageEvent) (content user : Nat)
    (h : countForEvent ev.event_id info.messages = 0) :
    countForEvent ev.event_id
        ((info.sendLocalEcho ev.event_id content user).insert_message ev).messages = 1 ∧
    msgsGet (.ServerTimestamp ev.origin_server_ts, ev.event_id)
        ((info.sendLocalEcho ev.event_id content user).insert_message ev).messages
      = some (Message.ofEvent ev) ∧
    msgsGet (.LocalEcho, ev.event_id)
        ((info.sendLocalEcho ev.event_id content user).insert_message ev).messages
      = none := by
  have hmsgs : ((info.sendLocalEcho ev.event_id content user).insert_message ev).messages
      = msgsRemove (.LocalEcho, ev.event_id)
          (msgsInsert (.ServerTimestamp ev.origin_server_ts, ev.event_id) (Message.ofEvent ev)
            (msgsInsert (.LocalEcho, ev.event_id)
              { event := .Local ev.event_id content, sender := user,
                timestamp := .LocalEcho }
              info.messages)) := rfl
  have h0 : ∀ p ∈ info.messages, p.1.2 ≠ ev.event_id := countForEvent_eq_zero h
  have h1 : ∀ p ∈ info.messages,
      p.1 ≠ ((MessageTimeStamp.LocalEcho, ev.event_id) : MessageKey) :=
    fun p hp hc => h0 p hp (by rw [hc])
  have hc1 : countForEvent ev.event_id
      (msgsInsert (.LocalEcho, ev.event_id)
        { event := .Local ev.event_id content, sender := user, timestamp := .LocalEcho }
        info.messages) = 1 := by
    rw [countForEvent_insert _ _ h1, h]
    simp
  have h2 : ∀ p ∈ msgsInsert (.LocalEcho, ev.event_id)
      { event := MessageEvent.Local ev.event_id content, sender := user,
        timestamp := MessageTimeStamp.LocalEcho } info.messages,
      p.1 ≠ ((MessageTimeStamp.ServerTimestamp ev.origin_server_ts, ev.event_id) :
        MessageKey) := by
    intro p hp hc
    rcases mem_msgsInsert hp with hq | hq
    · rw [hq] at hc
      exact absurd hc (by simp)
    · exact h0 p hq (by rw [hc])
  have hc2 : countForEvent ev.event_id
      (msgsInsert (.ServerTimestamp ev.origin_server_ts, ev.event_id) (Message.ofEvent ev)
        (msgsInsert (.LocalEcho, ev.event_id)
          { event := .Local ev.event_id content, sender := user, timestamp := .LocalEcho }
          info.messages)) = 2 := by
    rw [countForEvent_insert _ _ h2, hc1]
    simp
  have hk1 : countKey (.LocalEcho, ev.event_id)
      (msgsInsert (.LocalEcho, ev.event_id)
        { event := .Local ev.event_id content, sender := user, timestamp := .LocalEcho }
        info.messages) = 1 := by
    rw [countKey_insert_self _ h1, countKey_eq_zero h0]
  have hk2 : countKey (.LocalEcho, ev.event_id)
      (msgsInsert (.ServerTimestamp ev.origin_server_ts, ev.event_id) (Message.ofEvent ev)
        (msgsInsert (.LocalEcho, ev.event_id)
          { event := .Local ev.event_id content, sender := user, timestamp := .LocalEcho }
          info.messages)) = 1 := by
    rw [countKey_insert_ne _ (by simp), hk1]
  refine ⟨?_, ?_, ?_⟩
  · rw [hmsgs, countForEvent_remove, hc2, hk2]
  · rw [hmsgs, msgsGet_remove_ne _ (by simp), msgsGet_insert_self]
  · rw [hmsgs, msgsGet_remove_self]

theorem claim1_local_echo_reconciliation_witness :
    countForEvent 5 ({} : RoomInfo).messages = 0 ∧
    countForEvent 5
      ((({} : RoomInfo).sendLocalEcho 5 7 1).insert_message
        { event_id := 5, origin_server_ts := 10, sender := 1, content := 2 }).messages = 1 :=
  ⟨by decide,
    (claim1_local_echo_reconciliation {}
      { event_id := 5, origin_server_ts := 10, sender := 1, content := 2 } 7 1 (by decide)).1⟩

/-- Sample timeline used to witness the ordering claim: three confirmed
events arriving out of timestamp order. -/
def sampleEvents : List RoomMessageEvent :=
  [{ event_id := 1, origin_server_ts := 20, sender := 1, content := 0 },
   { event_id := 2, origin_server_ts := 10, sender := 1, content := 0 },
   { event_id := 3, origin_server_ts := 10, sender := 2, content := 0 }]

/-- C2: after any sequence of `insert_message` calls with distinct event
ids, the Message Log's iteration order is the sort order of its keys (its
entries are pairwise strictly ascending under the key order), and the key
order puts every `LocalEcho` key after every `ServerTimestamp` key and
breaks `ServerTimestamp` ties by event identifier. -/
theorem claim2_message_log_key_order
    (events : List RoomMessageEvent)
    (hids : (events.map RoomMessageEvent.event_id).Nodup) :
    sortedMsgs ((events.foldl RoomInfo.insert_message {}).messages) ∧
    (∀ ts eid eid2, keyLt (.ServerTimestamp ts, eid) (.LocalEcho, eid2) = true) ∧
    (∀ ts eid eid2, eid < eid2 →
      keyLt (.ServerTimestamp ts, eid) (.ServerTimestamp ts, eid2) = true) := by
  refine ⟨sortedMsgs_foldl_insert_message events {} List.Pairwise.nil, ?_, ?_⟩
  · intro ts eid eid2
    simp [keyLt, keyVal, tsRank, tripLt]
  · intro ts eid eid2 hlt
    simp [keyLt, keyVal, tsRank, tripLt, hlt]

theorem claim2_message_log_key_order_witness :
    (sampleEvents.map RoomMessageEvent.event_id).Nodup ∧
    sortedMsgs ((sampleEvents.foldl RoomInfo.insert_message {}).messages) :=
  ⟨by decide, (claim2_message_log_key_order sampleEvents (by decide)).1⟩

theorem keysGet_remove_self (l : List (Nat × EventLocation)) (eid : Nat) :
    keysGet eid (keysRemove eid l) = none := by
  induction l with
  | nil => simp [keysRemove, keysGet]
  | cons hd tl ih =>
    by_cases heq : hd.1 = eid
    · simpa [keysRemove, List.filter_cons, heq] using ih
    · simpa [keysRemove, List.filter_cons, keysGet, heq] using ih

theorem reactionsGet_set_self {l : Reactions} {t : Nat} {rs0 : List (Nat × Nat)}
    (rs : List (Nat × Nat)) (h : reactionsGet t l = some rs0) :
    reactionsGet t (reactionsSet t rs l) = some rs := by
  induction l with
  | nil => simp [reactionsGet] at h
  | cons hd tl ih =>
    by_cases heq : hd.1 = t
    · simp [reactionsSet, reactionsGet, heq]
    · rw [reactionsGet] at h
      simp only [heq, if_neg, ite_false] at h
      simpa [reactionsSet, reactionsGet, heq] using ih h

/-- C6: `insert_edit` is a no-op when the edit's target event id is
absent from the key index, when the indexed entry does not resolve to a
Message Log entry (stale index), or when the target message is
`Redacted`; and in every case it neither creates nor removes a Message
Log entry and leaves the key index untouched. -/
theorem claim6_insert_edit_no_creation (info : RoomInfo) (repl : Replacement) :
    (keysGet repl.event_id info.keys = none → info.insert_edit repl = info) ∧
    (∀ t, keysGet repl.event_id info.keys = some (.Reaction t) →
      info.insert_edit repl = info) ∧
    (∀ k, keysGet repl.event_id info.keys = some (.Message k) →
      msgsGet k info.messages = none → info.insert_edit repl = info) ∧
    (∀ k m, keysGet repl.event_id info.keys = some (.Message k) →
      msgsGet k info.messages = some m → m.event = .Redacted →
      info.insert_edit repl = info) ∧
    ((info.insert_edit repl).messages.length = info.messages.length ∧
      (info.insert_edit repl).keys = info.keys) := by
  refine ⟨?_, ?_, ?_, ?_, ?_⟩
  · intro h
    simp [RoomInfo.insert_edit, h]
  · intro t h
    simp [RoomInfo.insert_edit, h]
  · intro k h hm
    simp [RoomInfo.insert_edit, h, hm]
  · intro k m h hm hr
    simp only [RoomInfo.insert_edit, h, hm]
    rw [hr]
  · cases hk : keysGet repl.event_id info.keys with
    | none => simp [RoomInfo.insert_edit, hk]
    | some loc =>
      cases loc with
      | Reaction t => simp [RoomInfo.insert_edit, hk]
      | Message k =>
        cases hm : msgsGet k info.messages with
        | none => simp [RoomInfo.insert_edit, hk, hm]
        | some m =>
          cases he : m.event <;> simp [RoomInfo.insert_edit, hk, hm, he, msgsSet]

theorem claim6_insert_edit_no_creation_witness :
    keysGet 3 ({} : RoomInfo).keys = none ∧
    ({} : RoomInfo).insert_edit { event_id := 3, new_content := 9 } = {} :=
  ⟨by decide,
    (claim6_insert_edit_no_creation {} { event_id := 3, new_content := 9 }).1 (by decide)⟩

/-- C7: a redaction whose target resolves in the key index to a message
location replaces that message's content variant with `Redacted` in
place (same key, same log size, index and reaction table untouched); one
that resolves to a reaction marker removes that reaction from the
reaction table and drops the index entry without touching the Message
Log; an unknown target leaves the room unchanged. -/
theorem claim7_redaction_routing (info : RoomInfo) (redacts : Nat) :
    (keysGet redacts info.keys = none → info.handle_redaction redacts = info) ∧
    (∀ k m, keysGet redacts info.keys = some (.Message k) →
      msgsGet k info.messages = some m →
      (info.handle_redaction redacts).messages
          = msgsSet k { m with event := .Redacted } info.messages ∧
      msgsGet k (info.handle_redaction redacts).messages
          = some { m with event := .Redacted } ∧
      (info.handle_redaction redacts).messages.length = info.messages.length ∧
      (info.handle_redaction redacts).keys = info.keys ∧
      (info.handle_redaction redacts).reactions = info.reactions) ∧
    (∀ t, keysGet redacts info.keys = some (.Reaction t) →
      (info.handle_redaction redacts).messages = info.messages ∧
      keysGet redacts (info.handle_redaction redacts).keys = none ∧
      (∀ rs, reactionsGet t info.reactions = some rs →
        reactionsGet t (info.handle_redaction redacts).reactions
          = some (rs.filter (fun x => x.1 ≠ redacts)))) := by
  refine ⟨?_, ?_, ?_⟩
  · intro h
    simp [RoomInfo.handle_redaction, h]
  · intro k m h hm
    have hred : (info.handle_redaction redacts).messages
        = msgsSet k { m with event := .Redacted } info.messages := by
      simp [RoomInfo.handle_redaction, h, hm]
    refine ⟨hred, ?_, ?_, ?_, ?_⟩
    · rw [hred]
      exact msgsGet_set_self _ hm
    · rw [hred, msgsSet, List.length_map]
    · simp [RoomInfo.handle_redaction, h, hm]
    · simp [RoomInfo.handle_redaction, h, hm]
  · intro t h
    refine ⟨?_, ?_, ?_⟩
    · simp [RoomInfo.handle_redaction, h]
    · simp only [RoomInfo.handle_redaction, h]
      exact keysGet_remove_self _ _
    · intro rs hrs
      simp only [RoomInfo.handle_redaction, h, hrs]
      exact reactionsGet_set_self _ hrs

/-- Room containing one confirmed message and one reaction, used to
witness the redaction-routing claim at concrete inputs. -/
def redactSampleRoom : RoomInfo :=
  { keys := [(1, .Message (.ServerTimestamp 5, 1)), (9, .Reaction 1)],
    messages := [((.ServerTimestamp 5, 1),
      { event := .Original 4, sender := 2, timestamp := .ServerTimestamp 5 })],
    reactions := [(1, [(9, 3)])] }

theorem claim7_redaction_routing_witness :
    keysGet 1 redactSampleRoom.keys = some (.Message (.ServerTimestamp 5, 1)) ∧
    msgsGet (.ServerTimestamp 5, 1) (redactSampleRoom.handle_redaction 1).messages
      = some { event := .Redacted, sender := 2, timestamp := .ServerTimestamp 5 } :=
  ⟨by decide,
    ((claim7_redaction_routing redactSampleRoom 1).2.1 (.ServerTimestamp 5, 1)
      { event := .Original 4, sender := 2, timestamp := .ServerTimestamp 5 }
      (by decide) (by decide)).2.1⟩

/-- C10: the local echo inserted on send is keyed `(LocalEcho, event_id)`
but never added to the key index, so until the confirmed copy arrives
`get_event` returns nothing for it and edits or redactions targeting its
event id are silently dropped. -/
theorem claim10_local_echo_not_indexed
    (info : RoomInfo) (eid content user ncontent : Nat) :
    ((info.sendLocalEcho eid content user).keys = info.keys) ∧
    (msgsGet (.LocalEcho, eid) (info.sendLocalEcho eid content user).messages
      = some { event := .Local eid content, sender := user, timestamp := .LocalEcho }) ∧
    (keysGet eid info.keys = none →
      (info.sendLocalEcho eid content user).get_event eid = none ∧
      (info.sendLocalEcho eid content user).insert_edit
          { event_id := eid, new_content := ncontent }
        = info.sendLocalEcho eid content user ∧
      (info.sendLocalEcho eid content user).handle_redaction eid
        = info.sendLocalEcho eid content user) := by
  refine ⟨rfl, ?_, ?_⟩
  · exact msgsGet_insert_self _ _ _
  · intro h
    refine ⟨?_, ?_, ?_⟩
    · simp [RoomInfo.get_event, RoomInfo.sendLocalEcho, h]
    · simp [RoomInfo.insert_edit, RoomInfo.sendLocalEcho, h]
    · simp [RoomInfo.handle_redaction, RoomInfo.sendLocalEcho, h]

theorem claim10_local_echo_not_indexed_witness :
    keysGet 4 ({} : RoomInfo).keys = none ∧
    (({} : RoomInfo).sendLocalEcho 4 5 6).get_event 4 = none :=
  ⟨by decide, ((claim10_local_echo_not_indexed {} 4 5 6 7).2.2 (by decide)).1⟩

theorem getOrDefault_setRoom_self (st : ChatStore) (r : Nat) (info : RoomInfo) :
    (st.setRoom r info).getOrDefault r = info := by
  simp [ChatStore.setRoom, ChatStore.getOrDefault]

theorem getOrDefault_setRoom_ne (st : ChatStore) {r r2 : Nat} (info : RoomInfo)
    (h : r2 ≠ r) : (st.setRoom r info).getOrDefault r2 = st.getOrDefault r2 := by
  simp [ChatStore.setRoom, ChatStore.getOrDefault, h]

theorem mem_needLoadInsert_self (r : Nat) (l : List Nat) : r ∈ needLoadInsert r l := by
  by_cases h : r ∈ l <;> simp [needLoadInsert, h]

theorem mem_needLoadInsert_of_mem {r : Nat} {l : List Nat} (x : Nat) (h : r ∈ l) :
    r ∈ needLoadInsert x l := by
  by_cases hx : x ∈ l <;> simp [needLoadInsert, hx, h]

/-- C5: a failed history fetch clears the `fetching` flag, leaves the
cursor state and the Message Log exactly as they were before the fetch
(in particular not regressed to `NotStarted`), and re-inserts the room
into the needs-load set so it is retried on a later tick. -/
theorem claim5_fetch_failure_requeues (st : ChatStore) (room_id : Nat) (e : Unit) :
    ((load_insert room_id (.error e) st).getOrDefault room_id).fetching = false ∧
    ((load_insert room_id (.error e) st).getOrDefault room_id).fetch_id
      = (st.getOrDefault room_id).fetch_id ∧
    ((load_insert room_id (.error e) st).getOrDefault room_id).messages
      = (st.getOrDefault room_id).messages ∧
    room_id ∈ (load_insert room_id (.error e) st).need_load := by
  refine ⟨?_, ?_, ?_, ?_⟩ <;>
    simp [load_insert, ChatStore.getOrDefault, ChatStore.setRoom, mem_needLoadInsert_self]

theorem loadPlanStep_need_load_mono {now : Nat} {acc : ChatStore × List (Nat × Option Nat)}
    {x r : Nat} (h : r ∈ acc.1.need_load) : r ∈ (loadPlanStep now acc x).1.need_load := by
  simp only [loadPlanStep]
  split
  · exact mem_needLoadInsert_of_mem x h
  · split <;> exact h

theorem loadPlanStep_getOrDefault_ne {now : Nat} {acc : ChatStore × List (Nat × Option Nat)}
    {x r : Nat} (h : x ≠ r) :
    (loadPlanStep now acc x).1.getOrDefault r = acc.1.getOrDefault r := by
  simp only [loadPlanStep]
  split
  · exact getOrDefault_setRoom_ne _ _ (Ne.symm h)
  · split <;>
      simp [getOrDefault_setRoom_ne _ _ (Ne.symm h), ChatStore.getOrDefault, ChatStore.setRoom,
        Ne.symm h]

theorem loadPlanStep_plan_prop {now : Nat} {acc : ChatStore × List (Nat × Option Nat)}
    {x : Nat} :
    ∀ p ∈ (loadPlanStep now acc x).2,
      p ∈ acc.2 ∨ (p.1 = x ∧ (acc.1.getOrDefault x).fetch_id ≠ .Done) := by
  simp only [loadPlanStep]
  split
  · intro p hp
    exact Or.inl hp
  · split
    · intro p hp
      exact Or.inl hp
    · rename_i heq
      intro p hp
      rcases List.mem_append.mp hp with hp | hp
      · exact Or.inl hp
      · have hpx : p = (x, some _) := List.mem_singleton.mp hp
        refine Or.inr ⟨by rw [hpx], ?_⟩
        intro hc
        rw [hc] at heq
        cases heq
    · rename_i heq
      intro p hp
      rcases List.mem_append.mp hp with hp | hp
      · exact Or.inl hp
      · have hpx : p = (x, none) := List.mem_singleton.mp hp
        refine Or.inr ⟨by rw [hpx], ?_⟩
        intro hc
        rw [hc] at heq
        cases heq

theorem loadPlanFold_guarded {now r : Nat} {g : RoomInfo}
    (hg : (g.recently_fetched now || g.fetching) = true) :
    ∀ (l : List Nat) (acc : ChatStore × List (Nat × Option Nat)),
      acc.1.getOrDefault r = g →
      (∀ p ∈ acc.2, p.1 ≠ r) →
      ((l.foldl (loadPlanStep now) acc).1.getOrDefault r = g ∧
       (∀ p ∈ (l.foldl (loadPlanStep now) acc).2, p.1 ≠ r) ∧
       ((r ∈ l ∨ r ∈ acc.1.need_load) →
         r ∈ (l.foldl (loadPlanStep now) acc).1.need_load)) := by
  intro l
  induction l with
  | nil =>
    intro acc h1 h2
    refine ⟨h1, h2, ?_⟩
    rintro (h | h)
    · cases h
    · exact h
  | cons x xs ih =>
    intro acc h1 h2
    by_cases hx : x = r
    · subst hx
      have hstep : loadPlanStep now acc x
          = ({ acc.1.setRoom x g with
                need_load := needLoadInsert x (acc.1.setRoom x g).need_load }, acc.2) := by
        simp only [loadPlanStep, h1, hg]
        simp
      have h1s : (loadPlanStep now acc x).1.getOrDefault x = g := by
        rw [hstep]
        exact getOrDefault_setRoom_self _ _ _
      have h2s : ∀ p ∈ (loadPlanStep now acc x).2, p.1 ≠ x := by
        rw [hstep]
        exact h2
      have hmem : x ∈ (loadPlanStep now acc x).1.need_load := by
        rw [hstep]
        exact mem_needLoadInsert_self _ _
      have := ih (loadPlanStep now acc x) h1s h2s
      exact ⟨this.1, this.2.1, fun _ => this.2.2 (Or.inr hmem)⟩
    · have h1s : (loadPlanStep now acc x).1.getOrDefault r = g := by
        rw [loadPlanStep_getOrDefault_ne hx]
        exact h1
      have h2s : ∀ p ∈ (loadPlanStep now acc x).2, p.1 ≠ r := by
        intro p hp
        rcases loadPlanStep_plan_prop p hp with h | h
        · exact h2 p h
        · rw [h.1]
          exact hx
      have := ih (loadPlanStep now acc x) h1s h2s
      refine ⟨this.1, this.2.1, ?_⟩
      rintro (h | h)
      · rcases List.mem_cons.mp h with h | h
        · exact absurd h.symm hx
        · exact this.2.2 (Or.inl h)
      · exact this.2.2 (Or.inr (loadPlanStep_need_load_mono h))

theorem load_insert_getOrDefault_ne {r room_id : Nat} (res : MessageFetchResult)
    (st : ChatStore) (h : r ≠ room_id) :
    (load_insert room_id res st).getOrDefault r = st.getOrDefault r := by
  rw [load_insert.eq_def]
  split
  · exact getOrDefault_setRoom_ne _ _ h
  · simp [ChatStore.getOrDefault, ChatStore.setRoom, h]

theorem loadPlanStep_fetching_mono {now : Nat} {acc : ChatStore × List (Nat × Option Nat)}
    {x r : Nat} (h : (acc.1.getOrDefault r).fetching = true) :
    ((loadPlanStep now acc x).1.getOrDefault r).fetching = true := by
  by_cases hx : x = r
  · subst hx
    have hg : ((acc.1.getOrDefault x).recently_fetched now
        || (acc.1.getOrDefault x).fetching) = true := by
      rw [h]
      simp
    simp only [loadPlanStep, hg]
    simp only [if_pos, ite_true]
    simpa [ChatStore.getOrDefault, ChatStore.setRoom] using h
  · rw [loadPlanStep_getOrDefault_ne hx]
    exact h

theorem loadPlanFold_fetching_mono (now : Nat) (l : List Nat) :
    ∀ (acc : ChatStore × List (Nat × Option Nat)) (r : Nat),
      (acc.1.getOrDefault r).fetching = true →
      ((l.foldl (loadPlanStep now) acc).1.getOrDefault r).fetching = true := by
  induction l with
  | nil => intro acc r h; exact h
  | cons x xs ih =>
    intro acc r h
    exact ih (loadPlanStep now acc x) r (loadPlanStep_fetching_mono h)

theorem loadPlanStep_cases (now : Nat) (acc : ChatStore × List (Nat × Option Nat)) (x : Nat) :
    (loadPlanStep now acc x).2 = acc.2 ∨
    (∃ c, (loadPlanStep now acc x).2 = acc.2 ++ [(x, c)] ∧
      ((loadPlanStep now acc x).1.getOrDefault x).fetching = true ∧
      (acc.1.getOrDefault x).fetching = false) := by
  simp only [loadPlanStep]
  split
  · exact Or.inl rfl
  · rename_i hguard
    have hff : (acc.1.getOrDefault x).fetching = false := by
      rcases Bool.or_eq_false_iff.mp (Bool.not_eq_true _ |>.mp hguard) with ⟨_, h2⟩
      exact h2
    split
    · exact Or.inl rfl
    · rename_i c heq
      refine Or.inr ⟨some c, rfl, ?_, hff⟩
      simp [ChatStore.getOrDefault, ChatStore.setRoom]
    · rename_i heq
      refine Or.inr ⟨none, rfl, ?_, hff⟩
      simp [ChatStore.getOrDefault, ChatStore.setRoom]

theorem loadPlanFold_plan_good (now : Nat) (l : List Nat) :
    ∀ (acc : ChatStore × List (Nat × Option Nat)),
      (∀ p ∈ acc.2, (acc.1.getOrDefault p.1).fetching = true) →
      (acc.2.map (fun p => p.1)).Nodup →
      ((∀ p ∈ (l.foldl (loadPlanStep now) acc).2,
          ((l.foldl (loadPlanStep now) acc).1.getOrDefault p.1).fetching = true) ∧
       ((l.foldl (loadPlanStep now) acc).2.map (fun p => p.1)).Nodup) := by
  induction l with
  | nil => intro acc h1 h2; exact ⟨h1, h2⟩
  | cons x xs ih =>
    intro acc h1 h2
    rcases loadPlanStep_cases now acc x with hc | ⟨c, hplan, hfx, hff⟩
    · refine ih (loadPlanStep now acc x) ?_ ?_
      · intro p hp
        rw [hc] at hp
        exact loadPlanStep_fetching_mono (h1 p hp)
      · rw [hc]
        exact h2
    · refine ih (loadPlanStep now acc x) ?_ ?_
      · intro p hp
        rw [hplan] at hp
        rcases List.mem_append.mp hp with hp | hp
        · exact loadPlanStep_fetching_mono (h1 p hp)
        · rw [List.mem_singleton.mp hp]
          exact hfx
      · rw [hplan, List.map_append]
        refine List.nodup_append.mpr ⟨h2, List.nodup_singleton _, ?_⟩
        intro y hy hy2
        rcases List.mem_map.mp hy with ⟨p, hp, hpy⟩
        have hyx : y = x := by simpa using hy2
        have : (acc.1.getOrDefault x).fetching = true := by
          rw [← hyx, ← hpy] at *
          exact h1 p hp
        rw [hff] at this
        cases this

theorem needLoadInsert_nodup {l : List Nat} (r : Nat) (h : l.Nodup) :
    (needLoadInsert r l).Nodup := by
  by_cases hr : r ∈ l <;> simp [needLoadInsert, hr, h]

theorem loadPlanStep_need_load_nodup {now : Nat} {acc : ChatStore × List (Nat × Option Nat)}
    {x : Nat} (h : acc.1.need_load.Nodup) :
    (loadPlanStep now acc x).1.need_load.Nodup := by
  simp only [loadPlanStep]
  split
  · exact needLoadInsert_nodup _ (by simpa [ChatStore.setRoom] using h)
  · split <;> simpa [ChatStore.setRoom] using h

theorem loadPlanFold_need_load_nodup (now : Nat) (l : List Nat) :
    ∀ (acc : ChatStore × List (Nat × Option Nat)),
      acc.1.need_load.Nodup →
      (l.foldl (loadPlanStep now) acc).1.need_load.Nodup := by
  induction l with
  | nil => intro acc h; exact h
  | cons x xs ih =>
    intro acc h
    exact ih (loadPlanStep now acc x) (loadPlanStep_need_load_nodup h)

theorem load_insert_need_load_nodup {room_id : Nat} (res : MessageFetchResult)
    (st : ChatStore) (h : st.need_load.Nodup) :
    (load_insert room_id res st).need_load.Nodup := by
  rw [load_insert.eq_def]
  split
  · simpa [ChatStore.setRoom] using h
  · exact needLoadInsert_nodup _ (by simpa [ChatStore.setRoom] using h)

/-- Health invariant of the pagination pipeline: no room has two fetches
in flight (the in-flight list has no duplicates), every in-flight room
has its `fetching` flag set, and the needs-load set has no duplicates. -/
def inflightOk (s : SysState) : Prop :=
  s.inflight.Nodup ∧
  (∀ r ∈ s.inflight, (s.st.getOrDefault r).fetching = true) ∧
  s.st.need_load.Nodup

/-- C4: a room drained from the needs-load set while its fetch is in
flight or within the debounce window of its last fetch is re-queued with
its room state untouched and no fetch planned for it that tick; a room
whose last fetch is within the debounce window is never planned; and in
consequence the pipeline invariant that no room ever has two concurrent
fetches in flight is preserved by every action. -/
theorem claim4_inflight_and_debounce_guard :
    (∀ (st : ChatStore) (now r : Nat),
      r ∈ st.need_load →
      ((st.getOrDefault r).recently_fetched now
        || (st.getOrDefault r).fetching) = true →
      ((load_plan st now).1.getOrDefault r = st.getOrDefault r ∧
       r ∈ (load_plan st now).1.need_load ∧
       (∀ p ∈ (load_plan st now).2, p.1 ≠ r))) ∧
    (∀ (st : ChatStore) (now r t : Nat),
      (st.getOrDefault r).fetch_last = some t →
      now - t < ROOM_FETCH_DEBOUNCE →
      ∀ p ∈ (load_plan st now).2, p.1 ≠ r) ∧
    (∀ (s : SysState) (a : SysAction), inflightOk s → inflightOk (sysStep s a)) := by
  refine ⟨?_, ?_, ?_⟩
  · intro st now r hmem hg
    have h := loadPlanFold_guarded hg st.need_load ({ st with need_load := [] }, [])
      rfl (fun p hp => absurd hp (List.not_mem_nil p))
    exact ⟨h.1, h.2.2 (Or.inl hmem), h.2.1⟩
  · intro st now r t hlast hlt
    have hg : ((st.getOrDefault r).recently_fetched now
        || (st.getOrDefault r).fetching) = true := by
      rw [RoomInfo.recently_fetched, hlast]
      simp [hlt]
    exact (loadPlanFold_guarded hg st.need_load ({ st with need_load := [] }, [])
      rfl (fun p hp => absurd hp (List.not_mem_nil p))).2.1
  · intro s a hs
    obtain ⟨hnd, hfl, hnl⟩ := hs
    cases a with
    | tick now =>
      have hgood := loadPlanFold_plan_good now s.st.need_load
        ({ s.st with need_load := [] }, [])
        (fun p hp => absurd hp (List.not_mem_nil p)) List.nodup_nil
      refine ⟨?_, ?_, ?_⟩
      · show (s.inflight ++ (load_plan s.st now).2.map (fun p => p.1)).Nodup
        refine List.nodup_append.mpr ⟨hnd, ?_, ?_⟩
        · exact hgood.2
        · intro r hr hr2
          rcases List.mem_map.mp hr2 with ⟨p, hp, hpr⟩
          have hg : ((s.st.getOrDefault r).recently_fetched now
              || (s.st.getOrDefault r).fetching) = true := by
            rw [hfl r hr]
            simp
          exact (loadPlanFold_guarded hg s.st.need_load ({ s.st with need_load := [] }, [])
            rfl (fun p hp => absurd hp (List.not_mem_nil p))).2.1 p hp hpr
      · intro r hr
        rcases List.mem_append.mp hr with hr | hr
        · show ((load_plan s.st now).1.getOrDefault r).fetching = true
          exact loadPlanFold_fetching_mono now s.st.need_load _ r (hfl r hr)
        · rcases List.mem_map.mp hr with ⟨p, hp, hpr⟩
          show ((load_plan s.st now).1.getOrDefault r).fetching = true
          rw [← hpr]
          exact hgood.1 p hp
      · show (load_plan s.st now).1.need_load.Nodup
        exact loadPlanFold_need_load_nodup now s.st.need_load _ List.nodup_nil
    | complete room_id res =>
      simp only [sysStep]
      split
      · rename_i hin
        refine ⟨hnd.erase _, ?_, load_insert_need_load_nodup res s.st hnl⟩
        intro r hr
        have hr2 := (List.Nodup.mem_erase_iff hnd).mp hr
        rw [load_insert_getOrDefault_ne res s.st hr2.1]
        exact hfl r hr2.2
      · exact ⟨hnd, hfl, hnl⟩
    | mark room_id =>
      exact ⟨hnd, hfl, needLoadInsert_nodup _ hnl⟩

/-- Store with one room whose fetch is permanently marked in flight,
used to witness the admission-control claims. -/
def c4SampleStore : ChatStore :=
  { rooms := fun _ => some { fetching := true }, need_load := [0] }

theorem claim4_inflight_and_debounce_guard_witness :
    0 ∈ c4SampleStore.need_load ∧
    ((c4SampleStore.getOrDefault 0).recently_fetched 10
      || (c4SampleStore.getOrDefault 0).fetching) = true ∧
    0 ∈ (load_plan c4SampleStore 10).1.need_load ∧
    inflightOk (sysStep { st := c4SampleStore, inflight := [] } (.tick 10)) :=
  ⟨by decide, by decide,
    (claim4_inflight_and_debounce_guard.1 c4SampleStore 10 0 (by decide) (by decide)).2.1,
    claim4_inflight_and_debounce_guard.2.2 { st := c4SampleStore, inflight := [] } (.tick 10)
      ⟨List.nodup_nil, fun r hr => absurd hr (List.not_mem_nil r), by decide⟩⟩

theorem loadPlanFold_no_done (now : Nat) (st0 : ChatStore) :
    ∀ (l : List Nat) (acc : ChatStore × List (Nat × Option Nat)),
      (∀ r, (acc.1.getOrDefault r).fetch_id = (st0.getOrDefault r).fetch_id) →
      (∀ p ∈ acc.2, (st0.getOrDefault p.1).fetch_id ≠ .Done) →
      ∀ p ∈ (l.foldl (loadPlanStep now) acc).2,
        (st0.getOrDefault p.1).fetch_id ≠ .Done := by
  intro l
  induction l with
  | nil =>
    intro acc hrooms hplan
    exact hplan
  | cons x xs ih =>
    intro acc hrooms hplan
    refine ih (loadPlanStep now acc x) ?_ ?_
    · intro r
      by_cases hx : x = r
      · subst hx
        simp only [loadPlanStep]
        split
        · simpa [ChatStore.getOrDefault, ChatStore.setRoom] using hrooms x
        · split <;>
            simpa [ChatStore.getOrDefault, ChatStore.setRoom] using hrooms x
      · rw [loadPlanStep_getOrDefault_ne hx]
        exact hrooms r
    · intro p hp
      rcases loadPlanStep_plan_prop p hp with h | h
      · exact hplan p h
      · rw [h.1]
        rw [hrooms x] at h
        exact h.2

/-- C3: `RoomFetchStatus` only moves forward: the scheduler never plans a
fetch for a room whose status is `Done`, a successful fetch sets the
status to `Done` exactly when the response carries no further cursor and
to `HaveMore new_cursor` otherwise, and a failed fetch leaves the status
unchanged. -/
theorem claim3_fetch_status_transitions :
    (∀ (st : ChatStore) (now : Nat), ∀ p ∈ (load_plan st now).2,
      (st.getOrDefault p.1).fetch_id ≠ .Done) ∧
    (∀ (st : ChatStore) (r : Nat) (msgs : List AnyMessageLikeEvent),
      ((load_insert r (.ok (none, msgs)) st).getOrDefault r).fetch_id = .Done) ∧
    (∀ (st : ChatStore) (r c : Nat) (msgs : List AnyMessageLikeEvent),
      ((load_insert r (.ok (some c, msgs)) st).getOrDefault r).fetch_id = .HaveMore c) ∧
    (∀ (st : ChatStore) (r : Nat) (e : Unit),
      ((load_insert r (.error e) st).getOrDefault r).fetch_id
        = (st.getOrDefault r).fetch_id) := by
  refine ⟨?_, ?_, ?_, ?_⟩
  · intro st now
    exact loadPlanFold_no_done now st st.need_load ({ st with need_load := [] }, [])
      (fun _ => rfl) (fun p hp => absurd hp (List.not_mem_nil p))
  · intro st r msgs
    simp [load_insert, getOrDefault_setRoom_self]
  · intro st r c msgs
    simp [load_insert, getOrDefault_setRoom_self]
  · intro st r e
    simp [load_insert, ChatStore.getOrDefault, ChatStore.setRoom]

/-- Store with one unfetched room, used to witness the scheduler
transition claims at a concrete input. -/
def c3SampleStore : ChatStore :=
  { rooms := fun _ => some {}, need_load := [0] }

theorem claim3_fetch_status_transitions_witness :
    ((0, (none : Option Nat)) ∈ (load_plan c3SampleStore 10).2) ∧
    (c3SampleStore.getOrDefault 0).fetch_id ≠ .Done :=
  ⟨by decide,
    claim3_fetch_status_transitions.1 c3SampleStore 10 (0, none) (by decide)⟩

theorem loadPlanFold_done_entry {now r : Nat} {g : RoomInfo}
    (hgf : g.recently_fetched now = false) (hff : g.fetching = false)
    (hdone : g.fetch_id = .Done) :
    ∀ (l : List Nat) (acc : ChatStore × List (Nat × Option Nat)),
      acc.1.getOrDefault r = g →
      (∀ p ∈ acc.2, p.1 ≠ r) →
      r ∈ l →
      ((l.foldl (loadPlanStep now) acc).1.getOrDefault r
          = { g with fetch_last := some now, fetching := true } ∧
       (∀ p ∈ (l.foldl (loadPlanStep now) acc).2, p.1 ≠ r)) := by
  intro l
  induction l with
  | nil =>
    intro acc _ _ hmem
    cases hmem
  | cons x xs ih =>
    intro acc h1 h2 hmem
    by_cases hx : x = r
    · subst hx
      have hstep : loadPlanStep now acc x
          = ((acc.1.setRoom x g).setRoom x
              { g with fetch_last := some now, fetching := true }, acc.2) := by
        simp only [loadPlanStep, h1, hgf, hff, Bool.or_false]
        simp only [Bool.false_eq_true, if_neg, ite_false, hdone]
      have h1s : (loadPlanStep now acc x).1.getOrDefault x
          = { g with fetch_last := some now, fetching := true } := by
        rw [hstep]
        exact getOrDefault_setRoom_self _ _ _
      have h2s : ∀ p ∈ (loadPlanStep now acc x).2, p.1 ≠ x := by
        rw [hstep]
        exact h2
      have hg2 : ({ g with fetch_last := some now, fetching := true } :
          RoomInfo).recently_fetched now
          || ({ g with fetch_last := some now, fetching := true } : RoomInfo).fetching
          = true := by
        simp
      have := loadPlanFold_guarded hg2 xs (loadPlanStep now acc x) h1s h2s
      exact ⟨this.1, this.2.1⟩
    · have h1s : (loadPlanStep now acc x).1.getOrDefault r = g := by
        rw [loadPlanStep_getOrDefault_ne hx]
        exact h1
      have h2s : ∀ p ∈ (loadPlanStep now acc x).2, p.1 ≠ r := by
        intro p hp
        rcases loadPlanStep_plan_prop p hp with h | h
        · exact h2 p h
        · rw [h.1]
          exact hx
      have hmem2 : r ∈ xs := by
        rcases List.mem_cons.mp hmem with h | h
        · exact absurd h.symm hx
        · exact h
      exact ih (loadPlanStep now acc x) h1s h2s hmem2

/-- Stuck configuration of the pagination pipeline for one room: its
`fetching` flag is set although no fetch for it is in flight, so nothing
will ever clear the flag. -/
def fetchingStuck (r : Nat) (s : SysState) : Prop :=
  (s.st.getOrDefault r).fetching = true ∧ r ∉ s.inflight

/-- C9: draining a `Done` room (neither fetching nor inside the debounce
window) sets its `fetching` flag and stamps `fetch_last` before the
`Done` check skips planning it, so no fetch is issued and nothing ever
resets the flag: the stuck configuration is preserved by every pipeline
action, and a stuck room that is marked for load again is re-queued by
every tick without ever being planned. -/
theorem claim9_done_room_fetching_stuck (r : Nat) :
    (∀ (st : ChatStore) (now : Nat),
      r ∈ st.need_load →
      (st.getOrDefault r).fetch_id = .Done →
      (st.getOrDefault r).fetching = false →
      (st.getOrDefault r).recently_fetched now = false →
      ((load_plan st now).1.getOrDefault r
          = { st.getOrDefault r with fetch_last := some now, fetching := true } ∧
       (∀ p ∈ (load_plan st now).2, p.1 ≠ r))) ∧
    (∀ (s : SysState) (a : SysAction), fetchingStuck r s → fetchingStuck r (sysStep s a)) ∧
    (∀ (s : SysState) (tr : List SysAction),
      fetchingStuck r s → fetchingStuck r (tr.foldl sysStep s)) ∧
    (∀ (s : SysState) (now : Nat), fetchingStuck r s → r ∈ s.st.need_load →
      (r ∈ (sysStep s (.tick now)).st.need_load ∧
       ∀ p ∈ (load_plan s.st now).2, p.1 ≠ r)) := by
  have hstep : ∀ (s : SysState) (a : SysAction),
      fetchingStuck r s → fetchingStuck r (sysStep s a) := by
    intro s a hs
    obtain ⟨hf, hni⟩ := hs
    cases a with
    | tick now =>
      have hg : ((s.st.getOrDefault r).recently_fetched now
          || (s.st.getOrDefault r).fetching) = true := by
        rw [hf]
        simp
      have h := loadPlanFold_guarded hg s.st.need_load
        ({ s.st with need_load := [] }, []) rfl
        (fun p hp => absurd hp (List.not_mem_nil p))
      refine ⟨?_, ?_⟩
      · show ((load_plan s.st now).1.getOrDefault r).fetching = true
        rw [load_plan] at *
        rw [h.1]
        exact hf
      · show r ∉ s.inflight ++ ((load_plan s.st now).2.map (fun p => p.1))
        intro hc
        rcases List.mem_append.mp hc with hc | hc
        · exact hni hc
        · rcases List.mem_map.mp hc with ⟨p, hp, hpr⟩
          exact h.2.1 p hp hpr
    | complete room_id res =>
      simp only [sysStep]
      split
      · rename_i hin
        have hne : r ≠ room_id := fun hc => hni (hc ▸ hin)
        refine ⟨?_, ?_⟩
        · rw [load_insert_getOrDefault_ne res s.st hne]
          exact hf
        · intro hc
          exact hni (List.mem_of_mem_erase hc)
      · exact ⟨hf, hni⟩
    | mark room_id =>
      exact ⟨hf, hni⟩
  refine ⟨?_, hstep, ?_, ?_⟩
  · intro st now hmem hdone hff hgf
    exact loadPlanFold_done_entry hgf hff hdone st.need_load
      ({ st with need_load := [] }, []) rfl
      (fun p hp => absurd hp (List.not_mem_nil p)) hmem
  · intro s tr hs
    induction tr generalizing s with
    | nil => exact hs
    | cons a rest ih => exact ih _ (hstep s a hs)
  · intro s now hs hmem
    have hg : ((s.st.getOrDefault r).recently_fetched now
        || (s.st.getOrDefault r).fetching) = true := by
      rw [hs.1]
      simp
    have h := loadPlanFold_guarded hg s.st.need_load
      ({ s.st with need_load := [] }, []) rfl
      (fun p hp => absurd hp (List.not_mem_nil p))
    exact ⟨h.2.2 (Or.inl hmem), h.2.1⟩

/-- Store holding one room already stuck as `Done`, not yet fetching,
outside the debounce window, used to witness the stuck-room claim. -/
def c9SampleStore : ChatStore :=
  { rooms := fun _ => some { fetch_id := .Done }, need_load := [0] }

theorem claim9_done_room_fetching_stuck_witness :
    0 ∈ c9SampleStore.need_load ∧
    (c9SampleStore.getOrDefault 0).fetch_id = .Done ∧
    (load_plan c9SampleStore 10).1.getOrDefault 0
      = { c9SampleStore.getOrDefault 0 with fetch_last := some 10, fetching := true } ∧
    fetchingStuck 0
      ([SysAction.mark 0, SysAction.tick 20].foldl sysStep
        { st := (load_plan c9SampleStore 10).1, inflight := [] }) :=
  ⟨by decide, by decide,
    ((claim9_done_room_fetching_stuck 0).1 c9SampleStore 10 (by decide) (by decide)
      (by decide) (by decide)).1,
    (claim9_done_room_fetching_stuck 0).2.2.1
      { st := (load_plan c9SampleStore 10).1, inflight := [] }
      [SysAction.mark 0, SysAction.tick 20] ⟨by decide, by decide⟩⟩

theorem setReceiptsStep_rooms_ne {acc : ChatStore × List (Nat × Nat)}
    {entry : Nat × Receipts} {r : Nat} (h : entry.1 ≠ r) :
    (setReceiptsStep acc entry).1.rooms r = acc.1.rooms r := by
  rw [setReceiptsStep.eq_def]
  split
  · simp [ChatStore.setRoom, Ne.symm h]
  · rfl

theorem setReceiptsStep_updates_mono {acc : ChatStore × List (Nat × Nat)}
    {entry : Nat × Receipts} : ∀ u ∈ acc.2, u ∈ (setReceiptsStep acc entry).2 := by
  intro u hu
  rw [setReceiptsStep.eq_def]
  split
  · rename_i info heq
    cases info.read_till <;> simp [hu]
  · exact hu

theorem setReceiptsFold_rooms_frame (batch : List (Nat × Receipts)) {r : Nat} :
    ∀ acc, (∀ e ∈ batch, e.1 ≠ r) →
      (batch.foldl setReceiptsStep acc).1.rooms r = acc.1.rooms r := by
  induction batch with
  | nil => intro acc _; rfl
  | cons e rest ih =>
    intro acc h
    rw [List.foldl_cons, ih _ (fun x hx => h x (List.mem_cons_of_mem _ hx))]
    exact setReceiptsStep_rooms_ne (h e (List.mem_cons_self _ _))

theorem setReceiptsFold_updates_mono (batch : List (Nat × Receipts)) :
    ∀ acc, ∀ u ∈ acc.2, u ∈ (batch.foldl setReceiptsStep acc).2 := by
  induction batch with
  | nil => intro acc u hu; exact hu
  | cons e rest ih =>
    intro acc u hu
    exact ih _ u (setReceiptsStep_updates_mono u hu)

theorem setReceiptsFold_mem (batch : List (Nat × Receipts)) :
    ∀ (acc : ChatStore × List (Nat × Nat)) (rid : Nat) (m : Receipts) (info : RoomInfo),
      (batch.map Prod.fst).Nodup →
      (rid, m) ∈ batch →
      acc.1.rooms rid = some info →
      ((batch.foldl setReceiptsStep acc).1.rooms rid
          = some { info with receipts := m, read_till := none } ∧
       (∀ x, info.read_till = some x →
         (rid, x) ∈ (batch.foldl setReceiptsStep acc).2)) := by
  induction batch with
  | nil =>
    intro acc rid m info _ hmem _
    cases hmem
  | cons e rest ih =>
    intro acc rid m info hnodup hmem hroom
    have hnodup2 : (rest.map Prod.fst).Nodup := (List.nodup_cons.mp hnodup).2
    have hhead : e.1 ∉ rest.map Prod.fst := (List.nodup_cons.mp hnodup).1
    rcases List.mem_cons.mp hmem with hm | hm
    · have hre : e = (rid, m) := hm.symm
      subst hre
      have hstep : setReceiptsStep acc (rid, m)
          = (acc.1.setRoom rid { info with receipts := m, read_till := none },
             match info.read_till with
             | some read_till => acc.2 ++ [(rid, read_till)]
             | none => acc.2) := by
        rw [setReceiptsStep.eq_def]
        simp only [hroom]
      have hframe : ∀ x ∈ rest, x.1 ≠ rid := by
        intro x hx hc
        exact hhead (List.mem_map.mpr ⟨x, hx, hc⟩)
      refine ⟨?_, ?_⟩
      · rw [List.foldl_cons, setReceiptsFold_rooms_frame rest _ hframe, hstep]
        simp [ChatStore.setRoom]
      · intro x hx
        rw [List.foldl_cons]
        refine setReceiptsFold_updates_mono rest _ _ ?_
        rw [hstep]
        simp only [hx]
        exact List.mem_append.mpr (Or.inr (List.mem_singleton.mpr rfl))
    · have hne : e.1 ≠ rid := by
        intro hc
        have : rid ∈ rest.map Prod.fst := List.mem_map.mpr ⟨(rid, m), hm, rfl⟩
        exact hhead (hc ▸ this)
      have hroom2 : (setReceiptsStep acc e).1.rooms rid = some info := by
        rw [setReceiptsStep_rooms_ne hne]
        exact hroom
      rw [List.foldl_cons]
      exact ih _ rid m info hnodup2 hm hroom2

/-- C8: each periodic receipt refresh replaces the receipt map of every
room of the freshly computed batch wholesale — old entries are discarded,
never merged — and every such room that had a pending mark-read-till
marker has a read receipt sent for it (when the room is still joined) and
the marker cleared as part of the same refresh. -/
theorem claim8_receipts_wholesale_replace
    (st : ChatStore) (batch : List (Nat × Receipts)) (joined : Nat → Bool)
    (hnodup : (batch.map Prod.fst).Nodup) :
    ∀ rid m info, (rid, m) ∈ batch → st.rooms rid = some info →
      ((set_receipts st batch joined).1.rooms rid
          = some { info with receipts := m, read_till := none } ∧
       (∀ x, info.read_till = some x → joined rid = true →
         (rid, x) ∈ (set_receipts st batch joined).2)) := by
  intro rid m info hmem hroom
  have h := setReceiptsFold_mem batch (st, []) rid m info hnodup hmem hroom
  refine ⟨h.1, ?_⟩
  intro x hx hj
  exact List.mem_filter.mpr ⟨h.2 x hx, by simpa using hj⟩

/-- Store holding one room with a pending mark-read-till marker, used to
witness the receipt refresh claim. -/
def c8SampleStore : ChatStore :=
  { rooms := fun _ => some { read_till := some 7 }, need_load := [] }

theorem claim8_receipts_wholesale_replace_witness :
    (([(0, [(1, [2])])] : List (Nat × Receipts)).map Prod.fst).Nodup ∧
    (0, 7) ∈ (set_receipts c8SampleStore [(0, [(1, [2])])] (fun _ => true)).2 :=
  ⟨by decide,
    ((claim8_receipts_wholesale_replace c8SampleStore [(0, [(1, [2])])] (fun _ => true)
      (by decide) 0 [(1, [2])] { read_till := some 7 } (by decide) rfl).2 7 rfl rfl)⟩

end Iamb
